import Mathlib

/-!
Shallow embedding of the SHL assessment recommendation engine's core ranking
pipeline, translated from `api.py` (`_recommend_assessments`, `expand_skills`,
`extract_duration_constraint`, `parse_duration`) and its verbatim duplicate in
`evaluate_and_predict.py` (`get_recommendations_local`).

Modelling conventions:
* Python `str.lower()` is modelled character-wise on the ASCII range
  (`Char.toLower`), matching Python's behaviour on the ASCII strings the
  engine manipulates (synonym table entries, category tags, regex literals).
* Python float arithmetic on the score constants (0.35, 0.45, 1.8, ...) is
  modelled with exact rationals; the constant 1.2 in the duration-tolerance
  comparison is the exact rational 6/5.
* `re.search` on the three fixed duration patterns is modelled by an explicit
  leftmost scan (`searchNum`): the engine's patterns are of the shape
  "digits, optional whitespace, literal alternative", for which leftmost
  greedy regex matching coincides with this scan.
* A Python `set` is modelled as a duplicate-free list (first-insertion order);
  the Python `sorted(..., reverse=True)` (stable Timsort) is modelled by a
  stable descending insertion sort, which computes the same list.
-/

namespace SHLModel

/-- Lowercase a string character-wise (model of Python `str.lower()` on the
ASCII range, identical to mapping `Char.toLower` over the characters). -/
def lowerStr (s : String) : String :=
  String.mk (s.data.map Char.toLower)

/-- Strip leading and trailing whitespace (model of Python `str.strip()`). -/
def trimStr (s : String) : String :=
  String.mk (((s.data.dropWhile Char.isWhitespace).reverse.dropWhile
    Char.isWhitespace).reverse)

/-- Is `needle` a contiguous sublist of `hay`?  Model of Python's substring
test `needle in hay` at the character-list level. -/
def subListOf (needle : List Char) : List Char → Bool
  | [] => needle.isEmpty
  | hay@(_ :: rest) => needle.isPrefixOf hay || subListOf needle rest

/-- Python `needle in hay` for strings (substring containment). -/
def strIn (needle hay : String) : Bool :=
  subListOf needle.data hay.data

/-- Auxiliary state machine for whitespace splitting: `acc` is the current
word accumulated in reverse. -/
def splitWsAux : List Char → List Char → List String
  | [], acc => if acc = [] then [] else [String.mk acc.reverse]
  | c :: cs, acc =>
    if c.isWhitespace then
      if acc = [] then splitWsAux cs []
      else String.mk acc.reverse :: splitWsAux cs []
    else splitWsAux cs (c :: acc)

/-- Model of Python `str.split()` with no argument: split on whitespace runs,
discarding empty pieces. -/
def splitWs (s : String) : List String :=
  splitWsAux s.data []

/-! ## Duration parsing (`extract_duration_constraint`, `parse_duration`) -/

/-- Numeric value of a run of decimal digits (model of Python `int(...)` on
the digit group captured by the regex). -/
def digitsToNat (ds : List Char) : Nat :=
  ds.foldl (fun acc c => acc * 10 + (c.toNat - 48)) 0

/-- Leftmost match of the regex shape `(\d+)\s*(?:LIT1|LIT2|...)`: scan for
the first position where a maximal digit run, followed by optional
whitespace, is followed by one of the literal alternatives; return the value
of the digit run.  This is exactly `re.search` for the engine's three
duration patterns (the literals start with a non-digit, non-whitespace
character, so greedy matching and backtracking coincide with this scan). -/
def searchNum (lits : List (List Char)) : List Char → Option Nat
  | [] => none
  | c :: rest =>
    if c.isDigit then
      let ds := (c :: rest).takeWhile Char.isDigit
      let tail1 := (c :: rest).dropWhile Char.isDigit
      let tail2 := tail1.dropWhile Char.isWhitespace
      if lits.any (fun lit => lit.isPrefixOf tail2) then some (digitsToNat ds)
      else searchNum lits rest
    else searchNum lits rest

/-- Literal alternatives of the pattern `(\d+)\s*(?:min|minute|minutes)`:
since "minute" and "minutes" extend "min", a match exists iff "min" follows. -/
def minuteLits : List (List Char) := [['m', 'i', 'n']]

/-- Literal alternatives of `(\d+)\s*(?:hr|hour|hours)` (and of
`(\d+)\s*(?:hr|hour)` in the candidate-duration parser): "hours" extends
"hour", so "hr" and "hour" suffice. -/
def hourLits : List (List Char) := [['h', 'r'], ['h', 'o', 'u', 'r']]

/-- Literal alternative of the pattern `(\d+)\s*(?:h)`. -/
def hLits : List (List Char) := [['h']]

/-- Model of `extract_duration_constraint` (api.py lines 76-90,
evaluate_and_predict.py lines 45-59): try the three patterns in order on the
lowercased query; the first matching pattern type wins; the hour and bare-h
patterns multiply by 60 (in the source this is decided by inspecting the
pattern string: `'hour' in pattern or 'hr' in pattern or
pattern.endswith('h)')`, which is False for the minutes pattern and True for
the other two); return `none` when no pattern matches. -/
def extract_duration_constraint (query : String) : Option Nat :=
  let q := (lowerStr query).data
  match searchNum minuteLits q with
  | some v => some v
  | none =>
    match searchNum hourLits q with
    | some v => some (v * 60)
    | none =>
      match searchNum hLits q with
      | some v => some (v * 60)
      | none => none

/-- Model of `parse_duration` (api.py lines 93-108, evaluate_and_predict.py
lines 62-77): empty string gives the sentinel 999; otherwise sum the hour
match (times 60) and the minute match of the lowercased string, returning the
sentinel 999 when the total is zero. -/
def parse_duration (duration_str : String) : Nat :=
  if duration_str = "" then 999
  else
    let s := (lowerStr duration_str).data
    let hourPart := match searchNum hourLits s with
      | some v => v * 60
      | none => 0
    let minPart := match searchNum minuteLits s with
      | some v => v
      | none => 0
    let total := hourPart + minPart
    if total > 0 then total else 999

/-! ## Skill expansion (`SKILL_SYNONYMS`, `expand_skills`) -/

/-- The fixed synonym table (api.py lines 51-61, identical in
evaluate_and_predict.py lines 21-31), in source insertion order. -/
def SKILL_SYNONYMS : List (String × List String) :=
  [("python", ["python", "py", "python3"]),
   ("java", ["java", "j2ee", "spring"]),
   ("javascript", ["javascript", "js", "node", "nodejs", "react", "angular", "vue"]),
   ("sql", ["sql", "mysql", "postgresql", "database", "db"]),
   ("data", ["data", "analytics", "analysis"]),
   ("excel", ["excel", "spreadsheet", "ms excel"]),
   ("communication", ["communication", "verbal", "written", "presentation"]),
   ("leadership", ["leadership", "management", "manager", "lead"]),
   ("teamwork", ["teamwork", "collaboration", "team", "collaborative"])]

/-- Add a string to a duplicate-free list (model of Python `set.add`). -/
def insertNew (l : List String) (s : String) : List String :=
  if s ∈ l then l else l ++ [s]

/-- Add every member of `syns` (model of Python `set.update`). -/
def addSynonyms (acc : List String) (syns : List String) : List String :=
  syns.foldl insertNew acc

/-- Scan a synonym table, merging in every group whose member list contains
`sl` (the source looks groups up by membership, not by key equality). -/
def synFold (sl : String) (table : List (String × List String))
    (acc : List String) : List String :=
  table.foldl (fun a p => if sl ∈ p.2 then addSynonyms a p.2 else a) acc

/-- One iteration of the `expand_skills` loop: case-fold the skill, add it,
then union in every synonym group containing it. -/
def expandStep (acc : List String) (skill : String) : List String :=
  synFold (lowerStr skill) SKILL_SYNONYMS (insertNew acc (lowerStr skill))

/-- Model of `expand_skills` (api.py lines 64-73, evaluate_and_predict.py
lines 34-42).  The Python function builds a `set`; the model keeps the set as
a duplicate-free list, so list membership is exactly set membership. -/
def expand_skills (skills : List String) : List String :=
  skills.foldl expandStep []

/-! ## Data model -/

/-- One assessment as returned by retrieval (the fields of the result dicts
produced by `vector_store.search` that the ranking code reads).  The
retrieval-supplied similarity is modelled as an exact rational. -/
structure Candidate where
  name : String
  url : String
  description : String
  test_types : List String
  job_level : String
  skills : List String
  duration : String
  similarity_score : ℚ
deriving DecidableEq

/-- A candidate with the scores the engine attaches to it (`res['final_score']`,
`res['keyword_score']`, `res['metadata_score']` in the source). -/
structure Scored where
  cand : Candidate
  keyword_score : ℚ
  metadata_score : ℚ
  final_score : ℚ
deriving DecidableEq

/-! ## Signal scoring -/

/-- Body of the skill loop (api.py lines 235-241): an else-chain adding 1.8
for a name hit, else 1.2 for a skill-set hit, else 0.6 for a description hit. -/
def keywordStep (res : Candidate) (acc : ℚ) (skill : String) : ℚ :=
  if strIn skill (lowerStr res.name) then acc + 1.8
  else if skill ∈ res.skills.map (fun s => trimStr (lowerStr s)) then acc + 1.2
  else if strIn skill (lowerStr res.description) then acc + 0.6
  else acc

/-- Body of the role-token loop (api.py lines 243-247): add 0.9 per token hit. -/
def roleStep (res : Candidate) (acc : ℚ) (part : String) : ℚ :=
  if strIn part (lowerStr res.name) then acc + 0.9 else acc

/-- Keyword score of one candidate (api.py lines 231-247): the skill loop over
the expanded skills, then — when the role is non-empty — the role-token loop
over whitespace tokens of the role longer than 3 characters.  `role` is the
already-lowercased role. -/
def keywordScore (expanded : List String) (role : String) (res : Candidate) : ℚ :=
  let base := expanded.foldl (keywordStep res) 0
  if role = "" then base
  else ((splitWs role).filter (fun p => p.length > 3)).foldl (roleStep res) base

/-- Metadata score of one candidate (api.py lines 249-267): test-type
alignment, job-level substring match, duration tolerance.  `jobLevel` is the
already-lowercased query job level; `dur` is the extracted duration
constraint (`none` models Python `None`, and a zero value is also falsy in
the source's `if duration_constraint:` guard). -/
def metadataScore (ttypes : List String) (jobLevel : String)
    (dur : Option Nat) (res : Candidate) : ℚ :=
  let typeTerm : ℚ :=
    if "K" ∈ res.test_types ∨ "P" ∈ res.test_types then
      0.3 + (if res.test_types.any (fun t => t ∈ ttypes) then 0.2 else 0)
    else if res.test_types.any (fun t => t ∈ ttypes) then 0.2 else 0
  let jobTerm : ℚ :=
    if jobLevel ≠ "" ∧ strIn jobLevel (lowerStr res.job_level) then 0.3 else 0
  let durTerm : ℚ :=
    match dur with
    | none => 0
    | some d =>
      if d ≠ 0 ∧ ((parse_duration res.duration : ℚ) ≤ (d : ℚ) * 1.2) then 0.4
      else 0
  typeTerm + jobTerm + durTerm

/-- Score one candidate (api.py lines 229-278): attach the keyword, metadata
and final scores; the final score blends the three signals with the fixed
weights, capping the raw keyword score at 3.5 before normalisation. -/
def scoreCandidate (expanded : List String) (jobLevel role : String)
    (ttypes : List String) (dur : Option Nat) (res : Candidate) : Scored :=
  let keyword := keywordScore expanded role res
  let metadata := metadataScore ttypes jobLevel dur res
  { cand := res
    keyword_score := keyword
    metadata_score := metadata
    final_score :=
      res.similarity_score * 0.35 + min keyword 3.5 * 0.45 / 3.5 + metadata * 0.20 }

/-! ## Sorting (stable, descending by final score) -/

/-- The descending comparison used by both `sorted(..., key=lambda x:
x['final_score'], reverse=True)` calls. -/
def scoreGE (a b : Scored) : Prop :=
  b.final_score ≤ a.final_score

instance : DecidableRel scoreGE := fun a b =>
  inferInstanceAs (Decidable (b.final_score ≤ a.final_score))

instance : IsTotal Scored scoreGE :=
  ⟨fun a b => le_total b.final_score a.final_score⟩

instance : IsTrans Scored scoreGE :=
  ⟨fun _ _ _ h1 h2 => le_trans h2 h1⟩

/-- Model of Python's stable descending sort: a stable sort is uniquely
determined by the key order and the input order, so the stable insertion sort
computes the same list as Timsort with `reverse=True`. -/
def sortDesc (l : List Scored) : List Scored :=
  List.insertionSort scoreGE l

/-! ## Category balancing -/

/-- Normalisation of the required test types (api.py lines 223-226): an empty
list defaults to K and P; a list requiring K but not P gets P appended. -/
def normTypes (tt : List String) : List String :=
  if tt = [] then ["K", "P"]
  else if "K" ∈ tt ∧ "P" ∉ tt then tt ++ ["P"]
  else tt

/-- One step of the bucket-building scan (api.py lines 286-297): a candidate
joins the K bucket if tagged K, the P bucket if tagged P (both, when tagged
both), the other bucket if tagged neither — each bucket deduplicated by url. -/
def addBuckets (acc : List Scored × List Scored × List Scored) (res : Scored) :
    List Scored × List Scored × List Scored :=
  let bk := if "K" ∈ res.cand.test_types ∧
      res.cand.url ∉ acc.1.map (fun r => r.cand.url) then acc.1 ++ [res] else acc.1
  let bp := if "P" ∈ res.cand.test_types ∧
      res.cand.url ∉ acc.2.1.map (fun r => r.cand.url) then acc.2.1 ++ [res] else acc.2.1
  let bo := if "K" ∉ res.cand.test_types ∧ "P" ∉ res.cand.test_types ∧
      res.cand.url ∉ acc.2.2.map (fun r => r.cand.url) then acc.2.2 ++ [res] else acc.2.2
  (bk, bp, bo)

/-- Build the three buckets by a single scan of the score-sorted list. -/
def buckets (l : List Scored) : List Scored × List Scored × List Scored :=
  l.foldl addBuckets ([], [], [])

/-- Round-robin interleaving of the K and P buckets with a capacity bound
(api.py lines 303-308): alternate `k[i], p[i]`, skip an exhausted bucket,
stop appending once `cap` items are collected. -/
def interleave : Nat → List Scored → List Scored → List Scored
  | cap, [], ps => ps.take cap
  | cap, ks, [] => ks.take cap
  | 0, _ :: _, _ :: _ => []
  | 1, k :: _, _ :: _ => [k]
  | Nat.succ (Nat.succ c), k :: ks, p :: ps => k :: p :: interleave c ks ps

/-- Branch selection (api.py lines 299-315): both required — interleave;
K only — first `n` of the K bucket; P only — first `n` of the P bucket;
neither — `n/2` of each. -/
def select (tt : List String) (bk bp : List Scored) (n : Nat) : List Scored :=
  if "K" ∈ tt ∧ "P" ∈ tt then interleave n bk bp
  else if "K" ∈ tt then bk.take n
  else if "P" ∈ tt then bp.take n
  else bk.take (n / 2) ++ bp.take (n / 2)

/-- One step of the dict-comprehension deduplication
`{rec['url']: rec for rec in final_recommendations}` (api.py line 317): a
repeated url keeps its first position but is overwritten with the later
value; a fresh url is appended. -/
def upsert (acc : List Scored) (r : Scored) : List Scored :=
  if r.cand.url ∈ acc.map (fun a => a.cand.url) then
    acc.map (fun a => if a.cand.url = r.cand.url then r else a)
  else acc ++ [r]

/-- Deduplication by url, first occurrence position, last occurrence value
(Python dict insertion-order semantics). -/
def dictDedup (l : List Scored) : List Scored :=
  l.foldl upsert []

/-- One step of the backfill loop (api.py lines 320-324): stop adding once
`n` entries are present; skip urls already present; otherwise append. -/
def backfillStep (n : Nat) (acc : List Scored) (res : Scored) : List Scored :=
  if n ≤ acc.length then acc
  else if res.cand.url ∈ acc.map (fun r => r.cand.url) then acc
  else acc ++ [res]

/-- Backfill from the other bucket when fewer than `n` entries survived
deduplication (api.py lines 319-324). -/
def backfill (uniq : List Scored) (bo : List Scored) (n : Nat) : List Scored :=
  if uniq.length < n then bo.foldl (backfillStep n) uniq else uniq

/-! ## The ranking call -/

/-- The ranking pipeline after test-type normalisation (api.py lines 228-326):
score every candidate, sort descending, build buckets, select per the
required types, deduplicate, backfill, then re-sort descending and truncate
to `n`. -/
def rankCore (pool : List Candidate) (expanded : List String)
    (jobLevel role : String) (tt : List String) (dur : Option Nat)
    (n : Nat) : List Scored :=
  let scored := pool.map (scoreCandidate expanded jobLevel role tt dur)
  let sorted := sortDesc scored
  let b := buckets sorted
  let recs := select tt b.1 b.2.1 n
  let uniq := dictDedup recs
  let filled := backfill uniq b.2.2 n
  (sortDesc filled).take n

/-- The ranking call: the body of `_recommend_assessments` (api.py lines
202-326) after query analysis and retrieval, whose inputs are the retrieved
pool, the analyser-supplied skills, job level, role and required test types,
the extracted duration constraint, and the requested count.  The source
lowercases the job level and role, expands the skills, and normalises the
required test types before scoring. -/
def rank (pool : List Candidate) (skills : List String)
    (jobLevel role : String) (tt0 : List String) (dur : Option Nat)
    (n : Nat) : List Scored :=
  rankCore pool (expand_skills skills) (lowerStr jobLevel) (lowerStr role)
    (normTypes tt0) dur n

/-- Number of distinct identifiers (urls) in a pool. -/
def distinctIds (pool : List Candidate) : Nat :=
  ((pool.map (fun c => c.url)).dedup).length

end SHLModel

namespace SHLModel

/-! ## Character-level lemmas for case folding -/

theorem char_ofNat_toNat (n : Nat) (h : n.isValidChar) :
    (Char.ofNat n).toNat = n := by
  simp only [Char.ofNat, dif_pos h, Char.ofNatAux, Char.toNat, UInt32.toNat]
  simp [BitVec.toNat_ofNatLt]

theorem char_toLower_idem (c : Char) : c.toLower.toLower = c.toLower := by
  by_cases h : c.toNat ≥ 65 ∧ c.toNat ≤ 90
  · have h1 : c.toLower = Char.ofNat (c.toNat + 32) := by
      unfold Char.toLower
      exact if_pos h
    have hv : (c.toNat + 32).isValidChar := by
      left
      omega
    have ht : (Char.ofNat (c.toNat + 32)).toNat = c.toNat + 32 :=
      char_ofNat_toNat _ hv
    rw [h1]
    unfold Char.toLower
    rw [if_neg (by rw [ht]; omega)]
  · have h1 : c.toLower = c := by
      unfold Char.toLower
      exact if_neg h
    rw [h1, h1]

theorem lowerStr_idem (s : String) : lowerStr (lowerStr s) = lowerStr s := by
  show String.mk ((s.data.map Char.toLower).map Char.toLower)
      = String.mk (s.data.map Char.toLower)
  rw [List.map_map]
  exact congrArg String.mk (List.map_congr_left fun c _ => char_toLower_idem c)

/-! ## Membership characterisation of `expand_skills` -/

theorem mem_insertNew {l : List String} {s x : String} :
    x ∈ insertNew l s ↔ x ∈ l ∨ x = s := by
  unfold insertNew
  split
  · rename_i h
    constructor
    · exact Or.inl
    · rintro (hx | rfl)
      · exact hx
      · exact h
  · simp

theorem mem_addSynonyms {x : String} :
    ∀ (syns acc : List String), x ∈ addSynonyms acc syns ↔ x ∈ acc ∨ x ∈ syns := by
  intro syns
  induction syns with
  | nil => intro acc; simp [addSynonyms]
  | cons s ss ih =>
    intro acc
    unfold addSynonyms at ih ⊢
    simp only [List.foldl_cons]
    rw [ih, mem_insertNew]
    simp only [List.mem_cons]
    tauto

theorem mem_synFold {x sl : String} :
    ∀ (table : List (String × List String)) (acc : List String),
      x ∈ synFold sl table acc ↔ x ∈ acc ∨ ∃ p ∈ table, sl ∈ p.2 ∧ x ∈ p.2 := by
  intro table
  induction table with
  | nil => intro acc; simp [synFold]
  | cons p ps ih =>
    intro acc
    unfold synFold at ih ⊢
    simp only [List.foldl_cons]
    by_cases hp : sl ∈ p.2
    · rw [if_pos hp, ih, mem_addSynonyms]
      simp only [List.exists_mem_cons_iff]
      tauto
    · rw [if_neg hp, ih]
      simp only [List.exists_mem_cons_iff]
      constructor
      · rintro (h | h)
        · exact Or.inl h
        · exact Or.inr (Or.inr h)
      · rintro (h | ⟨hsl, _⟩ | h)
        · exact Or.inl h
        · exact absurd hsl hp
        · exact Or.inr h

theorem mem_expandStep {x : String} (acc : List String) (skill : String) :
    x ∈ expandStep acc skill ↔
      x ∈ acc ∨ x = lowerStr skill ∨
        ∃ p ∈ SKILL_SYNONYMS, lowerStr skill ∈ p.2 ∧ x ∈ p.2 := by
  unfold expandStep
  rw [mem_synFold, mem_insertNew]
  tauto

theorem mem_expandFold {x : String} :
    ∀ (skills acc : List String),
      x ∈ skills.foldl expandStep acc ↔
        x ∈ acc ∨ ∃ s ∈ skills, x = lowerStr s ∨
          ∃ p ∈ SKILL_SYNONYMS, lowerStr s ∈ p.2 ∧ x ∈ p.2 := by
  intro skills
  induction skills with
  | nil => intro acc; simp
  | cons s ss ih =>
    intro acc
    simp only [List.foldl_cons]
    rw [ih, mem_expandStep]
    simp only [List.exists_mem_cons_iff]
    exact or_assoc

theorem mem_expand {x : String} (skills : List String) :
    x ∈ expand_skills skills ↔
      ∃ s ∈ skills, x = lowerStr s ∨
        ∃ p ∈ SKILL_SYNONYMS, lowerStr s ∈ p.2 ∧ x ∈ p.2 := by
  unfold expand_skills
  rw [mem_expandFold]
  simp

theorem table_lower : ∀ p ∈ SKILL_SYNONYMS, ∀ x ∈ p.2, lowerStr x = x := by decide

theorem table_disjoint :
    ∀ p ∈ SKILL_SYNONYMS, ∀ q ∈ SKILL_SYNONYMS, ∀ x ∈ p.2, x ∈ q.2 → p = q := by
  decide

theorem expand_lower_fixed {skills : List String} :
    ∀ x ∈ expand_skills skills, lowerStr x = x := by
  intro x hx
  rw [mem_expand] at hx
  obtain ⟨s, _, hx | ⟨p, hp, _, hxp⟩⟩ := hx
  · rw [hx]
    exact lowerStr_idem s
  · exact table_lower p hp x hxp

/-- C4: skill expansion is idempotent — expanding the expansion adds no new
skill and loses none; as sets (the Python function returns a set),
`expand(expand(S)) == expand(S)`. -/
theorem C4_expand_skills_idempotent :
    ∀ (S : List String) (x : String),
      x ∈ expand_skills (expand_skills S) ↔ x ∈ expand_skills S := by
  intro S x
  constructor
  · intro hx
    rw [mem_expand] at hx
    obtain ⟨t, ht, hx⟩ := hx
    have htt : lowerStr t = t := expand_lower_fixed t ht
    rw [mem_expand] at ht
    obtain ⟨s, hs, hts⟩ := ht
    rcases hx with rfl | ⟨p, hp, htp, hxp⟩
    · rw [htt, mem_expand]
      exact ⟨s, hs, hts⟩
    · rw [htt] at htp
      rcases hts with rfl | ⟨q, hq, hsq, htq⟩
      · rw [mem_expand]
        exact ⟨s, hs, Or.inr ⟨p, hp, htp, hxp⟩⟩
      · have hpq : p = q := table_disjoint p hp q hq t htp htq
        rw [mem_expand]
        exact ⟨s, hs, Or.inr ⟨q, hq, hsq, hpq ▸ hxp⟩⟩
  · intro hx
    have hxx : lowerStr x = x := expand_lower_fixed x hx
    rw [mem_expand]
    exact ⟨x, hx, Or.inl hxx.symm⟩

end SHLModel

namespace SHLModel

/-! ## Keyword and final score characterisation -/

/-- Specification-side per-skill tier contribution (§4.3): the highest tier
of the else-chain — 1.8 for a name hit, else 1.2 for a skill-set hit, else
0.6 for a description hit, else 0. -/
def tierScore (res : Candidate) (skill : String) : ℚ :=
  if strIn skill (lowerStr res.name) then 1.8
  else if skill ∈ res.skills.map (fun s => trimStr (lowerStr s)) then 1.2
  else if strIn skill (lowerStr res.description) then 0.6
  else 0

theorem keywordStep_eq (res : Candidate) (acc : ℚ) (skill : String) :
    keywordStep res acc skill = acc + tierScore res skill := by
  unfold keywordStep tierScore
  split_ifs <;> ring

theorem foldl_add_shift {α : Type} (f : α → ℚ) :
    ∀ (l : List α) (a : ℚ),
      l.foldl (fun acc x => acc + f x) a = a + (l.map f).sum := by
  intro l
  induction l with
  | nil => intro a; simp
  | cons x xs ih =>
    intro a
    simp only [List.foldl_cons, List.map_cons, List.sum_cons]
    rw [ih]
    ring

theorem foldl_roleStep (res : Candidate) :
    ∀ (l : List String) (a : ℚ),
      l.foldl (roleStep res) a
        = a + 0.9 * ((l.filter (fun p => strIn p (lowerStr res.name))).length : ℚ) := by
  intro l
  induction l with
  | nil => intro a; simp
  | cons x xs ih =>
    intro a
    simp only [List.foldl_cons]
    rw [ih]
    by_cases hx : strIn x (lowerStr res.name) = true
    · have hstep : roleStep res a x = a + 0.9 := by
        unfold roleStep
        rw [if_pos hx]
      have hfil : List.filter (fun p => strIn p (lowerStr res.name)) (x :: xs)
          = x :: List.filter (fun p => strIn p (lowerStr res.name)) xs := by
        simp [List.filter_cons, hx]
      rw [hstep, hfil, List.length_cons]
      push_cast
      ring
    · have hstep : roleStep res a x = a := by
        unfold roleStep
        rw [if_neg hx]
      have hfil : List.filter (fun p => strIn p (lowerStr res.name)) (x :: xs)
          = List.filter (fun p => strIn p (lowerStr res.name)) xs := by
        simp [List.filter_cons, hx]
      rw [hstep, hfil]

/-- The keyword score as a closed sum: one tier contribution per expanded
skill plus 0.9 per long role token occurring in the candidate name. -/
theorem keywordScore_eq (expanded : List String) (role : String) (res : Candidate) :
    keywordScore expanded role res
      = (expanded.map (tierScore res)).sum
        + 0.9 * ((((splitWs role).filter (fun p => p.length > 3)).filter
            (fun p => strIn p (lowerStr res.name))).length : ℚ) := by
  unfold keywordScore
  have hbase : expanded.foldl (keywordStep res) 0 = (expanded.map (tierScore res)).sum := by
    rw [List.foldl_ext (keywordStep res) (fun acc x => acc + tierScore res x) 0
      (fun a b _ => keywordStep_eq res a b)]
    rw [foldl_add_shift]
    ring
  by_cases hrole : role = ""
  · rw [if_pos hrole, hbase, hrole]
    have hsplit : splitWs "" = [] := rfl
    rw [hsplit]
    simp
  · rw [if_neg hrole, foldl_roleStep, hbase]

/-- C6: the keyword score is the sum, over the expanded skills, of exactly
one tier contribution each (1.8 name / 1.2 skill set / 0.6 description / 0),
plus 0.9 for each whitespace token of the role longer than 3 characters that
occurs in the candidate name, cumulative across tokens and independent of
the skill loop. -/
theorem C6_keyword_score_decomposition :
    ∀ (expanded : List String) (role : String) (res : Candidate),
      keywordScore expanded role res
        = (expanded.map (tierScore res)).sum
          + 0.9 * ((((splitWs role).filter (fun p => p.length > 3)).filter
              (fun p => strIn p (lowerStr res.name))).length : ℚ) :=
  fun expanded role res => keywordScore_eq expanded role res

/-- C5: the final score is the fixed blend
0.35 · semantic + 0.45 · (min(keyword, 3.5) / 3.5) + 0.20 · metadata,
with the semantic term being the retrieval-supplied similarity unchanged and
the keyword term capped at 3.5 raw points before normalisation. -/
theorem C5_final_score_formula :
    ∀ (expanded : List String) (jobLevel role : String) (ttypes : List String)
      (dur : Option Nat) (res : Candidate),
      (scoreCandidate expanded jobLevel role ttypes dur res).final_score
        = 0.35 * res.similarity_score
          + 0.45 * (min (scoreCandidate expanded jobLevel role ttypes dur res).keyword_score 3.5 / 3.5)
          + 0.20 * (scoreCandidate expanded jobLevel role ttypes dur res).metadata_score := by
  intro expanded jobLevel role ttypes dur res
  have h1 : (scoreCandidate expanded jobLevel role ttypes dur res).final_score
      = res.similarity_score * 0.35
        + min (keywordScore expanded role res) 3.5 * 0.45 / 3.5
        + metadataScore ttypes jobLevel dur res * 0.20 := rfl
  have h2 : (scoreCandidate expanded jobLevel role ttypes dur res).keyword_score
      = keywordScore expanded role res := rfl
  have h3 : (scoreCandidate expanded jobLevel role ttypes dur res).metadata_score
      = metadataScore ttypes jobLevel dur res := rfl
  rw [h1, h2, h3]
  ring

/-- C10: the ranking computation is deterministic — the model is a pure
function of (pool, query context, n), so two calls agree, and the keyword
sum is invariant under reordering of the expanded-skill set (the only place
where the source iterates a Python set whose order is unspecified). -/
theorem C10_rank_deterministic :
    (∀ (pool : List Candidate) (skills : List String) (jobLevel role : String)
        (tt0 : List String) (dur : Option Nat) (n : Nat),
      rank pool skills jobLevel role tt0 dur n = rank pool skills jobLevel role tt0 dur n)
    ∧ ∀ (e1 e2 : List String) (role : String) (res : Candidate),
        e1.Perm e2 → keywordScore e1 role res = keywordScore e2 role res := by
  constructor
  · intro pool skills jobLevel role tt0 dur n
    rfl
  · intro e1 e2 role res hperm
    rw [keywordScore_eq, keywordScore_eq]
    rw [(hperm.map (tierScore res)).sum_eq]

/-- Witness for C10: a concrete reordering of a two-skill expanded set leaves
the keyword score unchanged. -/
theorem C10_rank_deterministic_witness :
    keywordScore ["java", "sql"] ""
        { name := "k", url := "u1", description := "", test_types := ["K"],
          job_level := "", skills := [], duration := "", similarity_score := 0 }
      = keywordScore ["sql", "java"] ""
        { name := "k", url := "u1", description := "", test_types := ["K"],
          job_level := "", skills := [], duration := "", similarity_score := 0 } :=
  C10_rank_deterministic.2 ["java", "sql"] ["sql", "java"] ""
    { name := "k", url := "u1", description := "", test_types := ["K"],
      job_level := "", skills := [], duration := "", similarity_score := 0 }
    (List.Perm.swap "sql" "java" [])

end SHLModel

namespace SHLModel

/-! ## Duration parser claims -/

/-- Specification-side description of the query duration parser (§4.1): the
three pattern types tried in fixed order — minutes, then hours, then bare h —
with the first matching type winning and hour-type values multiplied by 60;
`none` when no pattern matches. -/
def specQueryDuration (query : String) : Option Nat :=
  let q := (lowerStr query).data
  match searchNum minuteLits q, searchNum hourLits q, searchNum hLits q with
  | some v, _, _ => some v
  | none, some v, _ => some (v * 60)
  | none, none, some v => some (v * 60)
  | none, none, none => none

/-- C8: the query duration parser scans the minutes, hours and bare-h
patterns in that fixed order, the first matching pattern type wins, hour
values are multiplied by 60, and no match yields `none` (not an error); in
particular the spec scenario query containing "1 hour" with no minutes
pattern yields 60. -/
theorem C8_query_duration :
    (∀ q, extract_duration_constraint q = specQueryDuration q)
    ∧ extract_duration_constraint "finish within 1 hour" = some 60
    ∧ extract_duration_constraint "Select suitable assessments" = none := by
  refine ⟨?_, by decide, by decide⟩
  intro q
  unfold extract_duration_constraint specQueryDuration
  rcases hm : searchNum minuteLits (lowerStr q).data with _ | v
  · rcases hh : searchNum hourLits (lowerStr q).data with _ | v
    · rcases hb : searchNum hLits (lowerStr q).data with _ | v <;> simp [hm, hh, hb]
    · simp [hm, hh]
  · simp [hm]

/-- Specification-side sum of the duration matches in a candidate's duration
text (§4.1 candidate form): any hour match times 60 plus any minute match. -/
def specCandidateMinutes (s : String) : Nat :=
  (match searchNum hourLits (lowerStr s).data with
    | some v => v * 60
    | none => 0)
  + (match searchNum minuteLits (lowerStr s).data with
    | some v => v
    | none => 0)

/-- Counterexample to C9 as stated: "0 minutes" contains a numeric minute
match (of value 0), so the claimed "sum of the matches" is 0, but the parser
returns the sentinel 999 because the total is not positive. -/
theorem C9_counterexample :
    parse_duration "0 minutes" = 999
    ∧ searchNum minuteLits (lowerStr "0 minutes").data = some 0
    ∧ specCandidateMinutes "0 minutes" = 0 := by
  decide

/-- C9 (amended): the candidate duration parser returns the sum of the hour
match (times 60) and the minute match whenever that sum is positive, and the
sentinel 999 otherwise — in particular when no numeric duration is present,
and also in the corner case where matches are present but sum to zero; the
spec scenarios hold: "Approximate completion time: 45 minutes" parses to 45
and the empty string to 999. -/
theorem C9_candidate_duration_amended :
    (∀ s, parse_duration s
        = if 0 < specCandidateMinutes s then specCandidateMinutes s else 999)
    ∧ parse_duration "Approximate completion time: 45 minutes" = 45
    ∧ parse_duration "" = 999 := by
  refine ⟨?_, by decide, by decide⟩
  intro s
  by_cases hs : s = ""
  · rw [hs]
    decide
  · unfold parse_duration specCandidateMinutes
    rw [if_neg hs]

end SHLModel

namespace SHLModel

/-! ## Structural lemmas for the category balancer -/

theorem addBuckets_fst (acc : List Scored × List Scored × List Scored) (r : Scored) :
    (addBuckets acc r).1
      = if "K" ∈ r.cand.test_types ∧ r.cand.url ∉ acc.1.map (fun s => s.cand.url)
        then acc.1 ++ [r] else acc.1 := rfl

theorem addBuckets_snd_fst (acc : List Scored × List Scored × List Scored) (r : Scored) :
    (addBuckets acc r).2.1
      = if "P" ∈ r.cand.test_types ∧ r.cand.url ∉ acc.2.1.map (fun s => s.cand.url)
        then acc.2.1 ++ [r] else acc.2.1 := rfl

theorem addBuckets_snd_snd (acc : List Scored × List Scored × List Scored) (r : Scored) :
    (addBuckets acc r).2.2
      = if "K" ∉ r.cand.test_types ∧ "P" ∉ r.cand.test_types ∧
            r.cand.url ∉ acc.2.2.map (fun s => s.cand.url)
        then acc.2.2 ++ [r] else acc.2.2 := rfl

theorem mem_ite_append {x r : Scored} {l : List Scored} {c : Prop} [Decidable c]
    (h : x ∈ if c then l ++ [r] else l) : x ∈ l ∨ x = r := by
  split at h
  · rcases List.mem_append.1 h with h1 | h1
    · exact Or.inl h1
    · exact Or.inr (by simpa using h1)
  · exact Or.inl h

theorem mem_bucketsAux {x : Scored} :
    ∀ (l : List Scored) (acc : List Scored × List Scored × List Scored),
      (x ∈ (l.foldl addBuckets acc).1 → x ∈ acc.1 ∨ x ∈ l)
      ∧ (x ∈ (l.foldl addBuckets acc).2.1 → x ∈ acc.2.1 ∨ x ∈ l)
      ∧ (x ∈ (l.foldl addBuckets acc).2.2 → x ∈ acc.2.2 ∨ x ∈ l) := by
  intro l
  induction l with
  | nil =>
    intro acc
    exact ⟨fun h => Or.inl h, fun h => Or.inl h, fun h => Or.inl h⟩
  | cons r rs ih =>
    intro acc
    refine ⟨fun h => ?_, fun h => ?_, fun h => ?_⟩
    · simp only [List.foldl_cons] at h
      rcases (ih (addBuckets acc r)).1 h with h1 | h1
      · rw [addBuckets_fst] at h1
        rcases mem_ite_append h1 with h2 | h2
        · exact Or.inl h2
        · rw [h2]
          exact Or.inr (List.mem_cons_self r rs)
      · exact Or.inr (List.mem_cons_of_mem _ h1)
    · simp only [List.foldl_cons] at h
      rcases (ih (addBuckets acc r)).2.1 h with h1 | h1
      · rw [addBuckets_snd_fst] at h1
        rcases mem_ite_append h1 with h2 | h2
        · exact Or.inl h2
        · rw [h2]
          exact Or.inr (List.mem_cons_self r rs)
      · exact Or.inr (List.mem_cons_of_mem _ h1)
    · simp only [List.foldl_cons] at h
      rcases (ih (addBuckets acc r)).2.2 h with h1 | h1
      · rw [addBuckets_snd_snd] at h1
        rcases mem_ite_append h1 with h2 | h2
        · exact Or.inl h2
        · rw [h2]
          exact Or.inr (List.mem_cons_self r rs)
      · exact Or.inr (List.mem_cons_of_mem _ h1)

theorem mem_buckets_k {x : Scored} {l : List Scored} (h : x ∈ (buckets l).1) :
    x ∈ l := by
  rcases (mem_bucketsAux l ([], [], [])).1 h with h1 | h1
  · exact absurd h1 (List.not_mem_nil x)
  · exact h1

theorem mem_buckets_p {x : Scored} {l : List Scored} (h : x ∈ (buckets l).2.1) :
    x ∈ l := by
  rcases (mem_bucketsAux l ([], [], [])).2.1 h with h1 | h1
  · exact absurd h1 (List.not_mem_nil x)
  · exact h1

theorem mem_buckets_o {x : Scored} {l : List Scored} (h : x ∈ (buckets l).2.2) :
    x ∈ l := by
  rcases (mem_bucketsAux l ([], [], [])).2.2 h with h1 | h1
  · exact absurd h1 (List.not_mem_nil x)
  · exact h1

theorem interleave_nil_left (cap : Nat) (ps : List Scored) :
    interleave cap [] ps = ps.take cap := by
  simp [interleave]

theorem interleave_nil_right (cap : Nat) (k : Scored) (ks : List Scored) :
    interleave cap (k :: ks) [] = (k :: ks).take cap := by
  simp [interleave]

theorem interleave_zero (k p : Scored) (ks ps : List Scored) :
    interleave 0 (k :: ks) (p :: ps) = [] := by
  simp [interleave]

theorem interleave_one (k p : Scored) (ks ps : List Scored) :
    interleave 1 (k :: ks) (p :: ps) = [k] := by
  simp [interleave]

theorem interleave_cons_cons (c : Nat) (k p : Scored) (ks ps : List Scored) :
    interleave (c + 2) (k :: ks) (p :: ps) = k :: p :: interleave c ks ps := by
  simp [interleave]

theorem mem_interleave {x : Scored} :
    ∀ (ks ps : List Scored) (cap : Nat),
      x ∈ interleave cap ks ps → x ∈ ks ∨ x ∈ ps := by
  intro ks
  induction ks with
  | nil =>
    intro ps cap h
    rw [interleave_nil_left] at h
    exact Or.inr (List.mem_of_mem_take h)
  | cons k ks ih =>
    intro ps cap h
    cases ps with
    | nil =>
      rw [interleave_nil_right] at h
      exact Or.inl (List.mem_of_mem_take h)
    | cons p ps =>
      rcases cap with _ | (_ | c)
      · rw [interleave_zero] at h
        exact absurd h (List.not_mem_nil x)
      · rw [interleave_one] at h
        rcases List.mem_singleton.1 h with h1
        rw [h1]
        exact Or.inl (List.mem_cons_self k ks)
      · rw [interleave_cons_cons] at h
        rcases List.mem_cons.1 h with h1 | h1
        · rw [h1]
          exact Or.inl (List.mem_cons_self k ks)
        rcases List.mem_cons.1 h1 with h2 | h2
        · rw [h2]
          exact Or.inr (List.mem_cons_self p ps)
        · rcases ih ps c h2 with h3 | h3
          · exact Or.inl (List.mem_cons_of_mem _ h3)
          · exact Or.inr (List.mem_cons_of_mem _ h3)

theorem mem_select {x : Scored} (tt : List String) (bk bp : List Scored) (n : Nat)
    (h : x ∈ select tt bk bp n) : x ∈ bk ∨ x ∈ bp := by
  unfold select at h
  split_ifs at h
  · exact mem_interleave bk bp n h
  · exact Or.inl (List.mem_of_mem_take h)
  · exact Or.inr (List.mem_of_mem_take h)
  · rcases List.mem_append.1 h with h1 | h1
    · exact Or.inl (List.mem_of_mem_take h1)
    · exact Or.inr (List.mem_of_mem_take h1)

end SHLModel

namespace SHLModel

/-! ## Deduplication and backfill lemmas -/

theorem mem_upsert {x r : Scored} {acc : List Scored} (h : x ∈ upsert acc r) :
    x ∈ acc ∨ x = r := by
  unfold upsert at h
  split_ifs at h
  · rcases List.mem_map.1 h with ⟨a, ha, hax⟩
    by_cases hc : a.cand.url = r.cand.url
    · rw [if_pos hc] at hax
      exact Or.inr hax.symm
    · rw [if_neg hc] at hax
      exact Or.inl (hax ▸ ha)
  · rcases List.mem_append.1 h with h1 | h1
    · exact Or.inl h1
    · exact Or.inr (by simpa using h1)

theorem upsert_urls_nodup {acc : List Scored} {r : Scored}
    (h : (acc.map (fun a => a.cand.url)).Nodup) :
    ((upsert acc r).map (fun a => a.cand.url)).Nodup := by
  unfold upsert
  split_ifs with hmem
  · have heq : (acc.map (fun a => if a.cand.url = r.cand.url then r else a)).map
        (fun a => a.cand.url) = acc.map (fun a => a.cand.url) := by
      rw [List.map_map]
      apply List.map_congr_left
      intro a _
      dsimp only [Function.comp]
      by_cases hc : a.cand.url = r.cand.url
      · rw [if_pos hc]
        exact hc.symm
      · rw [if_neg hc]
    rw [heq]
    exact h
  · rw [List.map_append]
    simp only [List.map_cons, List.map_nil]
    rw [List.nodup_append]
    refine ⟨h, List.nodup_singleton _, ?_⟩
    intro u hu hnu
    have h1 := List.mem_singleton.1 hnu
    exact hmem (h1 ▸ hu)

theorem mem_foldl_upsert {x : Scored} :
    ∀ (l acc : List Scored), x ∈ l.foldl upsert acc → x ∈ acc ∨ x ∈ l := by
  intro l
  induction l with
  | nil =>
    intro acc h
    exact Or.inl h
  | cons r rs ih =>
    intro acc h
    simp only [List.foldl_cons] at h
    rcases ih (upsert acc r) h with h1 | h1
    · rcases mem_upsert h1 with h2 | h2
      · exact Or.inl h2
      · rw [h2]
        exact Or.inr (List.mem_cons_self r rs)
    · exact Or.inr (List.mem_cons_of_mem _ h1)

theorem foldl_upsert_urls_nodup :
    ∀ (l acc : List Scored), (acc.map (fun a => a.cand.url)).Nodup →
      ((l.foldl upsert acc).map (fun a => a.cand.url)).Nodup := by
  intro l
  induction l with
  | nil =>
    intro acc h
    exact h
  | cons r rs ih =>
    intro acc h
    simp only [List.foldl_cons]
    exact ih _ (upsert_urls_nodup h)

theorem mem_dictDedup {x : Scored} {l : List Scored} (h : x ∈ dictDedup l) :
    x ∈ l := by
  rcases mem_foldl_upsert l [] h with h1 | h1
  · exact absurd h1 (List.not_mem_nil x)
  · exact h1

theorem dictDedup_urls_nodup (l : List Scored) :
    ((dictDedup l).map (fun a => a.cand.url)).Nodup :=
  foldl_upsert_urls_nodup l [] (by simp)

theorem mem_backfillStep {x r : Scored} {acc : List Scored} {n : Nat}
    (h : x ∈ backfillStep n acc r) : x ∈ acc ∨ x = r := by
  unfold backfillStep at h
  split_ifs at h
  · exact Or.inl h
  · exact Or.inl h
  · rcases List.mem_append.1 h with h1 | h1
    · exact Or.inl h1
    · exact Or.inr (by simpa using h1)

theorem backfillStep_urls_nodup {acc : List Scored} {r : Scored} {n : Nat}
    (h : (acc.map (fun a => a.cand.url)).Nodup) :
    ((backfillStep n acc r).map (fun a => a.cand.url)).Nodup := by
  unfold backfillStep
  split_ifs with h1 h2
  · exact h
  · exact h
  · rw [List.map_append]
    simp only [List.map_cons, List.map_nil]
    rw [List.nodup_append]
    refine ⟨h, List.nodup_singleton _, ?_⟩
    intro u hu hnu
    have h3 := List.mem_singleton.1 hnu
    exact h2 (h3 ▸ hu)

theorem mem_foldl_backfillStep {x : Scored} {n : Nat} :
    ∀ (l acc : List Scored), x ∈ l.foldl (backfillStep n) acc → x ∈ acc ∨ x ∈ l := by
  intro l
  induction l with
  | nil =>
    intro acc h
    exact Or.inl h
  | cons r rs ih =>
    intro acc h
    simp only [List.foldl_cons] at h
    rcases ih (backfillStep n acc r) h with h1 | h1
    · rcases mem_backfillStep h1 with h2 | h2
      · exact Or.inl h2
      · rw [h2]
        exact Or.inr (List.mem_cons_self r rs)
    · exact Or.inr (List.mem_cons_of_mem _ h1)

theorem foldl_backfillStep_urls_nodup {n : Nat} :
    ∀ (l acc : List Scored), (acc.map (fun a => a.cand.url)).Nodup →
      ((l.foldl (backfillStep n) acc).map (fun a => a.cand.url)).Nodup := by
  intro l
  induction l with
  | nil =>
    intro acc h
    exact h
  | cons r rs ih =>
    intro acc h
    simp only [List.foldl_cons]
    exact ih _ (backfillStep_urls_nodup h)

theorem mem_backfill {x : Scored} {uniq bo : List Scored} {n : Nat}
    (h : x ∈ backfill uniq bo n) : x ∈ uniq ∨ x ∈ bo := by
  unfold backfill at h
  split_ifs at h
  · exact mem_foldl_backfillStep bo uniq h
  · exact Or.inl h

theorem backfill_urls_nodup {uniq bo : List Scored} {n : Nat}
    (h : (uniq.map (fun a => a.cand.url)).Nodup) :
    ((backfill uniq bo n).map (fun a => a.cand.url)).Nodup := by
  unfold backfill
  split_ifs
  · exact foldl_backfillStep_urls_nodup bo uniq h
  · exact h

/-! ## Sorting lemmas and ranking invariants -/

theorem sortDesc_perm (l : List Scored) : (sortDesc l).Perm l :=
  List.perm_insertionSort scoreGE l

theorem sortDesc_sorted (l : List Scored) : (sortDesc l).Pairwise scoreGE :=
  List.sorted_insertionSort scoreGE l

theorem rankCore_eq (pool : List Candidate) (expanded : List String)
    (jobLevel role : String) (tt : List String) (dur : Option Nat) (n : Nat) :
    rankCore pool expanded jobLevel role tt dur n
      = (sortDesc (backfill
          (dictDedup (select tt
            (buckets (sortDesc (pool.map (scoreCandidate expanded jobLevel role tt dur)))).1
            (buckets (sortDesc (pool.map (scoreCandidate expanded jobLevel role tt dur)))).2.1
            n))
          (buckets (sortDesc (pool.map (scoreCandidate expanded jobLevel role tt dur)))).2.2
          n)).take n := rfl

theorem rankCore_cand_mem {x : Scored} {pool : List Candidate}
    {expanded : List String} {jobLevel role : String} {tt : List String}
    {dur : Option Nat} {n : Nat}
    (h : x ∈ rankCore pool expanded jobLevel role tt dur n) : x.cand ∈ pool := by
  rw [rankCore_eq] at h
  have h2 := List.mem_of_mem_take h
  have h3 := (sortDesc_perm _).mem_iff.1 h2
  have h5 : x ∈ sortDesc (pool.map (scoreCandidate expanded jobLevel role tt dur)) := by
    rcases mem_backfill h3 with h4 | h4
    · have h6 := mem_dictDedup h4
      rcases mem_select _ _ _ _ h6 with h7 | h7
      · exact mem_buckets_k h7
      · exact mem_buckets_p h7
    · exact mem_buckets_o h4
  have h8 := (sortDesc_perm _).mem_iff.1 h5
  rcases List.mem_map.1 h8 with ⟨c, hc, hcx⟩
  have h9 : x.cand = c := by
    rw [← hcx]
    rfl
  rw [h9]
  exact hc

theorem rankCore_urls_nodup (pool : List Candidate) (expanded : List String)
    (jobLevel role : String) (tt : List String) (dur : Option Nat) (n : Nat) :
    ((rankCore pool expanded jobLevel role tt dur n).map (fun r => r.cand.url)).Nodup := by
  rw [rankCore_eq]
  have h1 : ((backfill
        (dictDedup (select tt
          (buckets (sortDesc (pool.map (scoreCandidate expanded jobLevel role tt dur)))).1
          (buckets (sortDesc (pool.map (scoreCandidate expanded jobLevel role tt dur)))).2.1
          n))
        (buckets (sortDesc (pool.map (scoreCandidate expanded jobLevel role tt dur)))).2.2
        n).map (fun a => a.cand.url)).Nodup :=
    backfill_urls_nodup (dictDedup_urls_nodup (select tt
      (buckets (sortDesc (pool.map (scoreCandidate expanded jobLevel role tt dur)))).1
      (buckets (sortDesc (pool.map (scoreCandidate expanded jobLevel role tt dur)))).2.1
      n))
  have h2 := (((sortDesc_perm _).map (fun r => r.cand.url)).symm).nodup h1
  rw [List.map_take]
  exact h2.sublist (List.take_sublist _ _)

theorem rankCore_sorted (pool : List Candidate) (expanded : List String)
    (jobLevel role : String) (tt : List String) (dur : Option Nat) (n : Nat) :
    (rankCore pool expanded jobLevel role tt dur n).Pairwise scoreGE := by
  rw [rankCore_eq]
  exact List.Pairwise.sublist (List.take_sublist _ _) (sortDesc_sorted _)

end SHLModel

namespace SHLModel

/-! ## Claim theorems about the ranking call -/

theorem rank_eq (pool : List Candidate) (skills : List String)
    (jobLevel role : String) (tt0 : List String) (dur : Option Nat) (n : Nat) :
    rank pool skills jobLevel role tt0 dur n
      = rankCore pool (expand_skills skills) (lowerStr jobLevel) (lowerStr role)
          (normTypes tt0) dur n := rfl

/-- C7: every ranking result is well-formed — for every adjacent pair the
earlier entry's final score is at least the later entry's (the output is
re-sorted score-descending after balancing and truncated to n), and no
identifier appears more than once. -/
theorem C7_result_wellformed :
    ∀ (pool : List Candidate) (skills : List String) (jobLevel role : String)
      (tt0 : List String) (dur : Option Nat) (n : Nat),
      List.Chain' (fun a b => b.final_score ≤ a.final_score)
          (rank pool skills jobLevel role tt0 dur n)
      ∧ ((rank pool skills jobLevel role tt0 dur n).map (fun r => r.cand.url)).Nodup := by
  intro pool skills jobLevel role tt0 dur n
  rw [rank_eq]
  constructor
  · exact List.Pairwise.chain'
      (rankCore_sorted pool (expand_skills skills) (lowerStr jobLevel) (lowerStr role)
        (normTypes tt0) dur n)
  · exact rankCore_urls_nodup pool (expand_skills skills) (lowerStr jobLevel)
      (lowerStr role) (normTypes tt0) dur n

/-- A one-element pool holding a single Knowledge-tagged candidate. -/
def kOnlyPool : List Candidate :=
  [{ name := "k", url := "u1", description := "", test_types := ["K"],
     job_level := "", skills := [], duration := "", similarity_score := 0 }]

/-- Counterexample to C1 as stated: with a pool holding one distinct
identifier (a Knowledge-tagged candidate) and a query whose required test
types are exactly Personality, the ranking call returns 0 entries although
min(n, distinct identifiers) = 1 — the candidate sits only in the knowledge
bucket, which the personality-only branch never reads, and the other bucket
is empty, so backfill cannot reach it. -/
theorem C1_counterexample :
    (rank kOnlyPool [] "" "" ["P"] none 1).length ≠ min 1 (distinctIds kOnlyPool) := by
  decide

/-- C1 (amended): the output length never exceeds min(n, number of distinct
identifiers in the pool); equality can fail — the counterexample shows a
required-type set that makes part of the pool unreachable, and candidates
tagged with both K and P can consume interleave capacity twice — so only the
upper bound holds of the code. -/
theorem C1_length_bound_amended :
    ∀ (pool : List Candidate) (skills : List String) (jobLevel role : String)
      (tt0 : List String) (dur : Option Nat) (n : Nat),
      (rank pool skills jobLevel role tt0 dur n).length ≤ min n (distinctIds pool) := by
  intro pool skills jobLevel role tt0 dur n
  refine le_min ?_ ?_
  · rw [rank_eq, rankCore_eq]
    exact List.length_take_le _ _
  · have hnodup := rankCore_urls_nodup pool (expand_skills skills) (lowerStr jobLevel)
      (lowerStr role) (normTypes tt0) dur n
    rw [rank_eq]
    have hsub : ((rankCore pool (expand_skills skills) (lowerStr jobLevel) (lowerStr role)
          (normTypes tt0) dur n).map (fun r => r.cand.url))
        ⊆ (pool.map (fun c => c.url)).dedup := by
      intro u hu
      rcases List.mem_map.1 hu with ⟨x, hx, hxu⟩
      have hc : x.cand ∈ pool := rankCore_cand_mem hx
      rw [List.mem_dedup, ← hxu]
      exact List.mem_map_of_mem (fun c => c.url) hc
    have hlen := (List.Nodup.subperm hnodup hsub).length_le
    rw [List.length_map] at hlen
    exact hlen

/-- C3: requiring Knowledge without Personality is the same call as requiring
both — the source appends "P" before scoring and balancing, so the
knowledge-only branch is unreachable from such a context. -/
theorem C3_knowledge_implies_personality :
    ∀ (pool : List Candidate) (skills : List String) (jobLevel role : String)
      (dur : Option Nat) (n : Nat) (tt : List String),
      "K" ∈ tt → "P" ∉ tt →
      rank pool skills jobLevel role tt dur n
        = rank pool skills jobLevel role (tt ++ ["P"]) dur n := by
  intro pool skills jobLevel role dur n tt hK hP
  rw [rank_eq, rank_eq]
  have h1 : normTypes tt = tt ++ ["P"] := by
    unfold normTypes
    rw [if_neg (List.ne_nil_of_mem hK), if_pos ⟨hK, hP⟩]
  have h2 : normTypes (tt ++ ["P"]) = tt ++ ["P"] := by
    unfold normTypes
    rw [if_neg (by simp), if_neg (fun hc => hc.2 (List.mem_append_right tt (by simp)))]
  rw [h1, h2]

/-- Witness for C3: a knowledge-only context on a concrete pool produces the
same output as the context with Personality added. -/
theorem C3_knowledge_implies_personality_witness :
    rank kOnlyPool [] "" "" ["K"] none 1
      = rank kOnlyPool [] "" "" (["K"] ++ ["P"]) none 1 :=
  C3_knowledge_implies_personality kOnlyPool [] "" "" none 1 ["K"]
    (by decide) (by decide)

/-- Specification-side test-type alignment term of the metadata score (§4.3):
0.3 for a candidate declaring K or P, plus 0.2 when the declared types
intersect the required types; for a candidate declaring neither primary
category, 0.2 for an intersection alone. -/
def typeAlignTerm (ttypes : List String) (res : Candidate) : ℚ :=
  if "K" ∈ res.test_types ∨ "P" ∈ res.test_types then
    0.3 + (if res.test_types.any (fun t => t ∈ ttypes) then 0.2 else 0)
  else if res.test_types.any (fun t => t ∈ ttypes) then 0.2 else 0

/-- Counterexample to C2 as stated: with empty skills, no job level and no
duration limit, the ranking call still gives the Knowledge-tagged candidate
metadata score 0.5 (0.3 for declaring a primary category plus 0.2 for the
intersection with the defaulted required types), not 0. -/
theorem C2_counterexample :
    (rank kOnlyPool [] "" "" [] none 1).map (fun r => r.metadata_score) ≠ [0] := by
  have h1 : (rank kOnlyPool [] "" "" [] none 1).map (fun r => r.metadata_score)
      = [metadataScore (normTypes []) (lowerStr "") none
          { name := "k", url := "u1", description := "", test_types := ["K"],
            job_level := "", skills := [], duration := "", similarity_score := 0 }] := rfl
  have h2 : metadataScore (normTypes []) (lowerStr "") none
      { name := "k", url := "u1", description := "", test_types := ["K"],
        job_level := "", skills := [], duration := "", similarity_score := 0 }
      = 0.5 := by
    have h3 : normTypes [] = ["K", "P"] := rfl
    have h5 : lowerStr "" = "" := rfl
    rw [h3]
    unfold metadataScore
    norm_num [h5]
  rw [h1, h2]
  intro hc
  have h4 : (0.5 : ℚ) = 0 := by
    simpa using hc
  norm_num at h4

/-- C2 (amended): with empty skills, an empty role, no job level and no
duration limit, the keyword score is exactly 0 and the metadata score reduces
to the test-type alignment term alone, so the final score is
0.35 · semantic + 0.20 · (type alignment term); it is 0.35 · semantic exactly
when the candidate's test types neither include a primary category nor
intersect the required set. -/
theorem C2_graceful_degradation_amended :
    ∀ (ttypes : List String) (res : Candidate),
      keywordScore (expand_skills []) "" res = 0
      ∧ metadataScore ttypes "" none res = typeAlignTerm ttypes res
      ∧ (scoreCandidate (expand_skills []) "" "" ttypes none res).final_score
          = 0.35 * res.similarity_score + 0.20 * typeAlignTerm ttypes res := by
  intro ttypes res
  have hk : keywordScore (expand_skills []) "" res = 0 := rfl
  have hm : metadataScore ttypes "" none res = typeAlignTerm ttypes res := by
    unfold metadataScore typeAlignTerm
    simp
  refine ⟨hk, hm, ?_⟩
  have hf : (scoreCandidate (expand_skills []) "" "" ttypes none res).final_score
      = res.similarity_score * 0.35
        + min (keywordScore (expand_skills []) "" res) 3.5 * 0.45 / 3.5
        + metadataScore ttypes "" none res * 0.20 := rfl
  rw [hf, hk, hm]
  have hmin : min (0 : ℚ) 3.5 = 0 := by norm_num
  rw [hmin]
  ring

end SHLModel
